import Mathlib

/-!
Shallow embedding of the md2html Markdown-to-HTML pipeline.

Sources embedded here:
* `src/parser.js` (first variant): `escapeHtml`, `extractCodeBlocks`,
  `processBlockElements`, `processInlineCode`, `processBold`,
  `processItalic`, `processLinks`, `restoreCodeBlocks`, `parseMarkdown`;
* `src/parser.js` (second variant): `transformLinks`;
* `src/fileHandler.js` and the two variants in `src/unnamed/part_001`
  and `src/unnamed/part_002`: `deriveOutputPath`;
* `src/converter.js`: `wrapHtmlDocument` and the title derivation.

Strings are modelled as `List Char`.  Every JavaScript global regex
`replace` is embedded as a left-to-right scanner: at each position the
scanner attempts the pattern; on success it emits the replacement and
continues after the match, on failure it emits one character and moves
one position to the right - exactly the `lastIndex` discipline of a
JavaScript global regex.  The scanners recurse structurally on an
explicit fuel so that all definitions reduce in the kernel; fuel
`length + 1` always suffices because every recursive call strictly
shrinks the list (touching the `0` fallback is impossible from the
wrappers).  The `processBlockElements` while-loop can genuinely fail to
make progress (its paragraph accumulator can stay empty without the
index advancing), so its fuelled loop returns `Option`, with `none`
modelling non-termination; `blockGo` consumes one fuel per iteration and
`lines.length + 1` fuel is enough for every terminating run since every
productive iteration consumes at least one line.
-/

/-- The JavaScript `\s` class, which is also the set of characters
    removed by `String.prototype.trim`: ECMAScript WhiteSpace (tab,
    vertical tab, form feed, space, no-break space, BOM and the Unicode
    Space_Separator category - U+1680, U+2000..U+200A, U+202F, U+205F,
    U+3000; U+180E left Zs in Unicode 6.3 and is excluded by modern
    engines) together with the LineTerminators LF, CR, U+2028, U+2029. -/
def jsWs (c : Char) : Bool :=
  c == ' ' || c == '\t' || c == '\n' || c == '\r' || c == '\x0b' || c == '\x0c' ||
  c == '\u00A0' || c == '\u1680' ||
  (decide ('\u2000' ≤ c) && decide (c ≤ '\u200A')) ||
  c == '\u2028' || c == '\u2029' || c == '\u202F' || c == '\u205F' ||
  c == '\u3000' || c == '\uFEFF'

/-- The JavaScript LineTerminator set: the characters `.` does not
    match and `\s` does match.  After the pipeline's line-ending
    normalization and `split('\n')`, only U+2028/U+2029 of these can
    still occur inside a line. -/
def isLineTerm (c : Char) : Bool :=
  c == '\n' || c == '\r' || c == '\u2028' || c == '\u2029'

/-- JavaScript `\w`: ASCII letters, digits and underscore. -/
def isWordChar (c : Char) : Bool := c.isAlpha || c.isDigit || c == '_'

/-- JavaScript `String.prototype.trim` (ASCII whitespace). -/
def trimJs (l : List Char) : List Char :=
  ((l.dropWhile jsWs).reverse.dropWhile jsWs).reverse

/-- `leadsWith pat l` holds when `pat` is an initial segment of `l`. -/
def leadsWith : List Char → List Char → Bool
  | [], _ => true
  | _ :: _, [] => false
  | a :: as, b :: bs => a == b && leadsWith as bs

/-- JavaScript `String.prototype.includes`: `pat` occurs contiguously in the list. -/
def containsSeq (pat : List Char) : List Char → Bool
  | [] => pat.isEmpty
  | c :: rest => leadsWith pat (c :: rest) || containsSeq pat rest

/-- JavaScript `text.split('\n')` (an empty string yields one empty line). -/
def splitNl : List Char → List (List Char)
  | [] => [[]]
  | c :: rest =>
    if c = '\n' then [] :: splitNl rest
    else
      match splitNl rest with
      | l :: ls => (c :: l) :: ls
      | [] => [[c]]

/-- JavaScript `lines.join('\n')`. -/
def joinNl : List (List Char) → List Char
  | [] => []
  | [l] => l
  | l :: ls => l ++ '\n' :: joinNl ls

/-- JavaScript `lines.join(' ')`. -/
def joinSp : List (List Char) → List Char
  | [] => []
  | [l] => l
  | l :: ls => l ++ ' ' :: joinSp ls

/-- Global single-character regex replace, `str.replace(/t/g, rep)`. -/
def replaceCh (t : Char) (rep : List Char) : List Char → List Char
  | [] => []
  | c :: rest => (if c = t then rep else [c]) ++ replaceCh t rep rest

/-- `escapeHtml` from `src/parser.js`: the five sequential global
    replaces, ampersand first. -/
def escL (l : List Char) : List Char :=
  replaceCh '\x27' "&#39;".data
    (replaceCh '\x22' "&quot;".data
      (replaceCh '>' "&gt;".data
        (replaceCh '<' "&lt;".data
          (replaceCh '&' "&amp;".data l))))

/-- String-level `escapeHtml` (`src/parser.js`). -/
def escapeHtml (s : String) : String := ⟨escL s.data⟩

/-- Specification-side character map for the five HTML-special
    characters; used to state what `escapeHtml` achieves. -/
def escChar (c : Char) : List Char :=
  if c = '&' then "&amp;".data
  else if c = '<' then "&lt;".data
  else if c = '>' then "&gt;".data
  else if c = '\x22' then "&quot;".data
  else if c = '\x27' then "&#39;".data
  else [c]

/-- Character-by-character escaping (specification side). -/
def escAll : List Char → List Char
  | [] => []
  | c :: rest => escChar c ++ escAll rest

/-- `markdown.replace(/\r\n/g, '\n')`. -/
def replCRLF : List Char → List Char
  | [] => []
  | [c] => [c]
  | c :: d :: rest =>
    if c = '\r' ∧ d = '\n' then '\n' :: replCRLF rest
    else c :: replCRLF (d :: rest)

/-- `markdown.replace(/\r/g, '\n')`. -/
def replCR : List Char → List Char :=
  List.map fun c => if c = '\r' then '\n' else c

/-- `PLACEHOLDER_PREFIX = '\x00CODE_BLOCK_'` from `src/parser.js`. -/
def phMark : List Char := "\x00CODE_BLOCK_".data

/-- The placeholder token emitted for block number `i`:
    `PLACEHOLDER_PREFIX + i + PLACEHOLDER_SUFFIX`. -/
def placeholderTok (i : Nat) : List Char := phMark ++ (Nat.repr i).data ++ ['\x00']

/-- The lazy `([\s\S]*?)` up to the next closing fence: splits off the
    shortest prefix followed by three backticks; `none` when no closing
    fence exists (then the regex match fails). -/
def splitFence : List Char → Option (List Char × List Char)
  | [] => none
  | c :: rest =>
    if leadsWith "```".data (c :: rest) then some ([], rest.drop 2)
    else
      match splitFence rest with
      | some (code, after) => some (c :: code, after)
      | none => none

/-- `code.replace(/\n$/, '')`: strip one trailing newline. -/
def stripTrailNl (l : List Char) : List Char :=
  if l.getLast? == some '\n' then l.dropLast else l

/-- The rendered HTML for one fenced block (`extractCodeBlocks` callback). -/
def renderBlock (lang code : List Char) : List Char :=
  "<pre><code".data ++
    (if lang.isEmpty then []
     else " class=\"language-".data ++ escL lang ++ ['\x22']) ++
    ['>'] ++ escL (stripTrailNl code) ++ "</code></pre>".data

/-- Scanner for ``markdown.replace(/```([\w]*)\n?([\s\S]*?)```/g, ...)``
    of `extractCodeBlocks`, threading the `blocks` accumulator. -/
def extractGo : Nat → List (List Char) → List Char → List Char × List (List Char)
  | 0, acc, l => (l, acc)
  | _ + 1, acc, [] => ([], acc)
  | fuel + 1, acc, c :: rest =>
    if leadsWith "```".data (c :: rest) then
      let body := rest.drop 2
      let lang := body.takeWhile isWordChar
      let r1 := body.dropWhile isWordChar
      let r2 := if r1.head? == some '\n' then r1.tail else r1
      match splitFence r2 with
      | some (code, after) =>
        let p := extractGo fuel (acc ++ [renderBlock lang code]) after
        (placeholderTok acc.length ++ p.1, p.2)
      | none =>
        let p := extractGo fuel acc rest
        (c :: p.1, p.2)
    else
      let p := extractGo fuel acc rest
      (c :: p.1, p.2)

/-- `extractCodeBlocks` from `src/parser.js`: returns the text with
    placeholders and the ordered rendered-block list. -/
def extractCodeBlocks (s : String) : String × List String :=
  let p := extractGo (s.data.length + 1) [] s.data
  (⟨p.1⟩, p.2.map fun b => (⟨b⟩ : String))

/-- `line.match(/^(#{1,6})\s+(.+)$/)` together with the `.trim()` that
    `processBlockElements` applies to the content group.  The regex
    matches exactly when the maximal leading hash run has length 1..6,
    the next character is `\s`, and `(.+)$` can close the line: `.`
    matches any character except a LineTerminator and `$` (no `m` flag)
    anchors at the very end, so when something follows the whitespace
    run that suffix must be nonempty and LineTerminator-free (every
    shorter `\s+` split only prepends characters, so backtracking
    cannot help), and when the line is hashes plus whitespace only,
    `\s+` hands its last character back to `(.+)`, which needs the run
    to have length at least 2 and its last character not to be a
    LineTerminator.  The emitted content is the trimmed captured group,
    which equals the trimmed remainder after the hashes. -/
def headingMatch (l : List Char) : Option (Nat × List Char) :=
  let hashes := l.takeWhile fun c => c == '#'
  let rest := l.dropWhile fun c => c == '#'
  let ok := decide (1 ≤ hashes.length) && decide (hashes.length ≤ 6) &&
            (match rest.head? with
             | some c => jsWs c
             | none => false) &&
            (if (rest.dropWhile jsWs).isEmpty then
               decide (2 ≤ (rest.takeWhile jsWs).length) &&
                 !isLineTerm (rest.getLastD ' ')
             else (rest.dropWhile jsWs).all fun c => !isLineTerm c)
  if ok then some (hashes.length, trimJs rest) else none

/-- `line.match(/^#{1,6}\s+/)` used by the paragraph accumulation loop:
    a maximal hash run of length 1..6 followed by one whitespace
    character (no trailing-content requirement, unlike `headingMatch`). -/
def paraStopHash (l : List Char) : Bool :=
  let hashes := l.takeWhile fun c => c == '#'
  let rest := l.dropWhile fun c => c == '#'
  decide (1 ≤ hashes.length) && decide (hashes.length ≤ 6) &&
  (match rest.head? with
   | some c => jsWs c
   | none => false)

/-- The condition of the paragraph-collection inner loop of
    `processBlockElements`. -/
def isParaLine (l : List Char) : Bool :=
  !(trimJs l).isEmpty && !paraStopHash l && !containsSeq phMark l

/-- `<hN>content</hN>`. -/
def hTag (lvl : Nat) (content : List Char) : List Char :=
  "<h".data ++ (Nat.repr lvl).data ++ ['>'] ++ content ++
    "</h".data ++ (Nat.repr lvl).data ++ ['>']

/-- `<p>` + lines joined with single spaces + `</p>`. -/
def pTag (para : List (List Char)) : List Char :=
  "<p>".data ++ joinSp para ++ "</p>".data

/-- The `while (i < lines.length)` loop of `processBlockElements`.
    One fuel per iteration; `none` models non-termination.  When the
    paragraph accumulator collects no line the source loop repeats with
    the same index, which is modelled by recursing on the unchanged
    line list (consuming only fuel). -/
def blockGo : Nat → List (List Char) → Option (List (List Char))
  | 0, _ => none
  | _ + 1, [] => some []
  | fuel + 1, l :: rest =>
    match headingMatch l with
    | some (lvl, content) => (blockGo fuel rest).map fun out => hTag lvl content :: out
    | none =>
      if containsSeq phMark l then (blockGo fuel rest).map fun out => l :: out
      else if (trimJs l).isEmpty then blockGo fuel rest
      else
        let para := (l :: rest).takeWhile isParaLine
        let rest2 := (l :: rest).dropWhile isParaLine
        if para.isEmpty then blockGo fuel (l :: rest)
        else (blockGo fuel rest2).map fun out => pTag para :: out

/-- `processBlockElements` from `src/parser.js`; `none` models the
    non-terminating runs of its while-loop. -/
def processBlockElements (t : List Char) : Option (List Char) :=
  (blockGo ((splitNl t).length + 1) (splitNl t)).map joinNl

/-- Scanner for ``text.replace(/`([^`]+)`/g, ...)`` of `processInlineCode`. -/
def inlineGo : Nat → List Char → List Char
  | 0, l => l
  | _ + 1, [] => []
  | fuel + 1, c :: rest =>
    if c = '\x60' then
      match rest.takeWhile (fun x => x != '\x60'), rest.dropWhile (fun x => x != '\x60') with
      | co :: cs, _ :: rest2 =>
        "<code>".data ++ escL (co :: cs) ++ "</code>".data ++ inlineGo fuel rest2
      | _, _ => '\x60' :: inlineGo fuel rest
    else c :: inlineGo fuel rest

/-- `processInlineCode` from `src/parser.js`. -/
def processInlineCode (s : String) : String := ⟨inlineGo (s.data.length + 1) s.data⟩

/-- Scanner for one bold pass, `/\*\*([^*]+)\*\*/g` (or the `__`
    analogue), replacement `<strong>$1</strong>`. -/
def boldGo (d : Char) : Nat → List Char → List Char
  | 0, l => l
  | _ + 1, [] => []
  | fuel + 1, c :: rest =>
    if c = d then
      match rest with
      | c2 :: rest2 =>
        if c2 = d then
          match rest2.takeWhile (fun x => x != d), rest2.dropWhile (fun x => x != d) with
          | co :: cs, _ :: a2 :: rest3 =>
            if a2 = d then
              "<strong>".data ++ (co :: cs) ++ "</strong>".data ++ boldGo d fuel rest3
            else c :: boldGo d fuel rest
          | _, _ => c :: boldGo d fuel rest
        else c :: boldGo d fuel rest
      | [] => [c]
    else c :: boldGo d fuel rest

/-- `processBold` from `src/parser.js`: the `**` pass, then the `__` pass. -/
def processBold (s : String) : String :=
  let t1 := boldGo '*' (s.data.length + 1) s.data
  ⟨boldGo '_' (t1.length + 1) t1⟩

/-- Scanner for one italic pass, `/\*([^*]+)\*/g` (or the `_`
    analogue), replacement `<em>$1</em>`. -/
def italGo (d : Char) : Nat → List Char → List Char
  | 0, l => l
  | _ + 1, [] => []
  | fuel + 1, c :: rest =>
    if c = d then
      match rest.takeWhile (fun x => x != d), rest.dropWhile (fun x => x != d) with
      | co :: cs, _ :: rest2 =>
        "<em>".data ++ (co :: cs) ++ "</em>".data ++ italGo d fuel rest2
      | _, _ => d :: italGo d fuel rest
    else c :: italGo d fuel rest

/-- `processItalic` from `src/parser.js`: the `*` pass, then the `_` pass. -/
def processItalic (s : String) : String :=
  let t1 := italGo '*' (s.data.length + 1) s.data
  ⟨italGo '_' (t1.length + 1) t1⟩

/-- Scanner for `/\[([^\]]+)\]\(([^)]+)\)/g` of `processLinks`;
    replacement `<a href="${escapeHtml(url)}">${linkText}</a>`. -/
def linksGo : Nat → List Char → List Char
  | 0, l => l
  | _ + 1, [] => []
  | fuel + 1, c :: rest =>
    if c = '[' then
      match rest.takeWhile (fun x => x != ']'), rest.dropWhile (fun x => x != ']') with
      | lt :: lts, _ :: '(' :: rest2 =>
        match rest2.takeWhile (fun x => x != ')'), rest2.dropWhile (fun x => x != ')') with
        | u :: us, _ :: rest3 =>
          "<a href=\x22".data ++ escL (u :: us) ++ "\x22>".data ++ (lt :: lts) ++
            "</a>".data ++ linksGo fuel rest3
        | _, _ => '[' :: linksGo fuel rest
      | _, _ => '[' :: linksGo fuel rest
    else c :: linksGo fuel rest

/-- `processLinks` from `src/parser.js` (first variant - URL escaped). -/
def processLinks (s : String) : String := ⟨linksGo (s.data.length + 1) s.data⟩

namespace V2

/-- Scanner for `transformLinks` of the second `src/parser.js` variant:
    same pattern, replacement `<a href="$2">$1</a>` - the URL is
    inserted verbatim, without escaping. -/
def linksRawGo : Nat → List Char → List Char
  | 0, l => l
  | _ + 1, [] => []
  | fuel + 1, c :: rest =>
    if c = '[' then
      match rest.takeWhile (fun x => x != ']'), rest.dropWhile (fun x => x != ']') with
      | lt :: lts, _ :: '(' :: rest2 =>
        match rest2.takeWhile (fun x => x != ')'), rest2.dropWhile (fun x => x != ')') with
        | u :: us, _ :: rest3 =>
          "<a href=\x22".data ++ (u :: us) ++ "\x22>".data ++ (lt :: lts) ++
            "</a>".data ++ linksRawGo fuel rest3
        | _, _ => '[' :: linksRawGo fuel rest
      | _, _ => '[' :: linksRawGo fuel rest
    else c :: linksRawGo fuel rest

/-- `transformLinks` from the second `src/parser.js` variant. -/
def transformLinks (s : String) : String := ⟨linksRawGo (s.data.length + 1) s.data⟩

end V2

/-- `parseInt(index, 10)` on a nonempty digit run. -/
def natOfDigits : List Char → Nat :=
  List.foldl (fun a c => a * 10 + (c.toNat - 48)) 0

/-- Scanner for `restoreCodeBlocks`:
    `text.replace(new RegExp(PREFIX + '(\d+)' + SUFFIX, 'g'), (m, i) => blocks[parseInt(i, 10)])`.
    An out-of-range index yields JavaScript `undefined`, which `replace`
    stringifies to `"undefined"`. -/
def restoreGo (blocks : List (List Char)) : Nat → List Char → List Char
  | 0, l => l
  | _ + 1, [] => []
  | fuel + 1, c :: rest =>
    if c = '\x00' && leadsWith "CODE_BLOCK_".data rest then
      let body := rest.drop 11
      match body.takeWhile Char.isDigit, body.dropWhile Char.isDigit with
      | d :: ds, '\x00' :: rest2 =>
        blocks.getD (natOfDigits (d :: ds)) "undefined".data ++ restoreGo blocks fuel rest2
      | _, _ => c :: restoreGo blocks fuel rest
    else c :: restoreGo blocks fuel rest

/-- `restoreCodeBlocks` from `src/parser.js`. -/
def restoreCodeBlocks (s : String) (blocks : List String) : String :=
  ⟨restoreGo (blocks.map String.data) (s.data.length + 1) s.data⟩

/-- `parseMarkdown` from `src/parser.js` (first variant), on string
    input: normalize line endings, extract code blocks, block elements,
    inline code, bold, italic, links, restore.  `none` models the
    non-terminating runs of `processBlockElements`. -/
def parseMarkdown (s : String) : Option String :=
  let n := replCR (replCRLF s.data)
  let et := extractGo (n.length + 1) [] n
  match processBlockElements et.1 with
  | none => none
  | some b =>
    let s1 := inlineGo (b.length + 1) b
    let s2 := boldGo '*' (s1.length + 1) s1
    let s3 := boldGo '_' (s2.length + 1) s2
    let s4 := italGo '*' (s3.length + 1) s3
    let s5 := italGo '_' (s4.length + 1) s4
    let s6 := linksGo (s5.length + 1) s5
    some ⟨restoreGo et.2 (s6.length + 1) s6⟩

/-- A JavaScript argument as seen by `typeof`: either a string value or
    anything else. -/
inductive JsInput where
  | str (s : String)
  | nonString

/-- The guarded entry point: `parseMarkdown` throws
    `TypeError('parseMarkdown expects a string input')` before any
    processing when the argument is not a string. -/
def parseMarkdownJs : JsInput → Except String (Option String)
  | .str s => .ok (parseMarkdown s)
  | .nonString => .error "parseMarkdown expects a string input"

/-! Path helpers (Node `path`, posix), as used by the three
    `deriveOutputPath` implementations and by the converter.  They are
    modelled for the path shapes the repository handles: relative or
    absolute slash-separated paths without trailing slashes. -/

/-- Split a path on `/`. -/
def splitSlash : List Char → List (List Char)
  | [] => [[]]
  | c :: rest =>
    if c = '/' then [] :: splitSlash rest
    else
      match splitSlash rest with
      | l :: ls => (c :: l) :: ls
      | [] => [[c]]

/-- The last path component (no trailing-slash handling needed here). -/
def lastComp (p : String) : List Char := (splitSlash p.data).getLastD []

/-- Node `path.basename(p)`. -/
def pathBase (p : String) : String := ⟨lastComp p⟩

/-- `a` ends with `b`. -/
def endsWithL (a b : List Char) : Bool := leadsWith b.reverse a.reverse

/-- Node `path.basename(p, suffix)`: the suffix is removed only when it
    is nonempty, a proper suffix, and not the whole basename. -/
def pathBaseSuffix (p : String) (suffix : String) : String :=
  let b := lastComp p
  if suffix.data ≠ [] && b ≠ suffix.data && endsWithL b suffix.data then
    ⟨b.take (b.length - suffix.data.length)⟩
  else ⟨b⟩

/-- Node `path.extname(p)`: the part of the basename from its last dot,
    empty when there is no dot, the dot is the first character, or the
    basename is `..`. -/
def pathExt (p : String) : String :=
  let b := lastComp p
  if b = "..".data then ""
  else
    let revB := b.reverse
    let afterRev := revB.takeWhile fun c => c != '.'
    match revB.dropWhile fun c => c != '.' with
    | [] => ""
    | _ :: preRev => if preRev.isEmpty then "" else ⟨'.' :: afterRev.reverse⟩

/-- Node `path.dirname(p)` for slash-separated paths. -/
def pathDir (p : String) : String :=
  if containsSeq ['/'] p.data then
    match p.data.reverse.dropWhile fun c => c != '/' with
    | _ :: restRev => if restRev.isEmpty then "/" else ⟨restRev.reverse⟩
    | [] => "."
  else "."

/-- Node `path.join(dir, file)` for the shapes used here. -/
def pathJoin (d f : String) : String :=
  if d = "." ∨ d = "" then f
  else if endsWithL d.data ['/'] then d ++ f
  else d ++ "/" ++ f

/-- ASCII `String.prototype.toLowerCase`. -/
def lowerStr (s : String) : String := ⟨s.data.map Char.toLower⟩

namespace FileHandler

/-- `deriveOutputPath` from `src/fileHandler.js`: case-insensitive
    `.md` replacement via `ext.toLowerCase() === '.md'` and
    `inputPath.slice(0, -ext.length) + '.html'`; no output-directory
    parameter exists in this implementation. -/
def deriveOutputPath (inputPath : String) : String :=
  let ext := pathExt inputPath
  if lowerStr ext = ".md" then
    ⟨inputPath.data.take (inputPath.data.length - ext.data.length)⟩ ++ ".html"
  else inputPath ++ ".html"

end FileHandler

namespace P1

/-- `deriveOutputPath` from `src/unnamed/part_001`: case-sensitive
    `ext === '.md'`; for other extensions `.html` is appended to the
    full basename; optional output directory relocates the file. -/
def deriveOutputPath (inputPath : String) (outputDir : Option String) : String :=
  let ext := pathExt inputPath
  let base := pathBaseSuffix inputPath (if ext = ".md" then ext else "")
  let htmlName := if ext = ".md" then base ++ ".html" else pathBase inputPath ++ ".html"
  match outputDir with
  | some d => pathJoin d htmlName
  | none => pathJoin (pathDir inputPath) htmlName

end P1

namespace P2

/-- `deriveOutputPath` from `src/unnamed/part_002`: case-sensitive
    `ext === '.md'`; `basename(inputPath, ext === '.md' ? '.md' : ext)`
    strips whatever extension is present, then `.html` is appended. -/
def deriveOutputPath (inputPath : String) (outputDir : Option String) : String :=
  let ext := pathExt inputPath
  let base := pathBaseSuffix inputPath (if ext = ".md" then ".md" else ext)
  let htmlName := base ++ ".html"
  match outputDir with
  | some d => pathJoin d htmlName
  | none => pathJoin (pathDir inputPath) htmlName

end P2

namespace Converter

/-- `wrapHtmlDocument` from `src/converter.js`: the template literal
    interpolates `title` and `fragment` verbatim. -/
def wrapHtmlDocument (fragment title : String) : String :=
  "<!DOCTYPE html>\n<html lang=\x22en\x22>\n<head>\n  <meta charset=\x22UTF-8\x22>\n  <meta name=\x22viewport\x22 content=\x22width=device-width, initial-scale=1.0\x22>\n  <title>" ++
    title ++
    "</title>\n</head>\n<body>\n" ++
    fragment ++
    "\n</body>\n</html>\n"

/-- Title derivation in `convert`:
    `basename(inputPath).replace(/\.md$/i, '')`. -/
def deriveTitle (inputPath : String) : String :=
  let b := pathBase inputPath
  if endsWithL (b.data.map Char.toLower) ".md".data then
    ⟨b.data.take (b.data.length - 3)⟩
  else b

end Converter

/-- None of the five HTML-special characters. -/
def noSpecialChar (c : Char) : Bool :=
  !(c == '&' || c == '<' || c == '>' || c == '\x22' || c == '\x27')

/-- A character that can trigger none of the Markdown rewrites of the
    pipeline: not a heading marker, backtick, emphasis marker, link
    opener, placeholder sentinel or carriage return.  Text made of such
    characters (plus newlines) "contains no Markdown syntax". -/
def mdFree (c : Char) : Bool :=
  !(c == '#' || c == '\x60' || c == '*' || c == '_' || c == '[' ||
    c == '\x00' || c == '\r')

/-- A character that no inline stage or normalization can touch and
    that keeps a heading on a single line: in particular not a
    JavaScript LineTerminator, which `.` refuses inside the heading
    regex's content group. -/
def inlFree (c : Char) : Bool :=
  !(c == '\x60' || c == '*' || c == '_' || c == '[' || c == '\x00' ||
    c == '\r' || c == '\n' || c == '\u2028' || c == '\u2029')

/-- A run of `n` hash characters. -/
def hashRun (n : Nat) : List Char := List.replicate n '#'

/-- `needle` occurs contiguously inside `hay`. -/
def ContainsSub (needle hay : List Char) : Prop :=
  ∃ p q, hay = p ++ needle ++ q

/-! General list helpers. -/

theorem twAll {α : Type} {p : α → Bool} {l : List α} (h : ∀ a ∈ l, p a = true) :
    l.takeWhile p = l := by
  induction l with
  | nil => rfl
  | cons c rest ih =>
    rw [List.takeWhile_cons, if_pos (h c (by simp)), ih fun a ha => h a (by simp [ha])]

theorem dwAll {α : Type} {p : α → Bool} {l : List α} (h : ∀ a ∈ l, p a = true) :
    l.dropWhile p = [] := by
  induction l with
  | nil => rfl
  | cons c rest ih =>
    rw [List.dropWhile_cons, if_pos (h c (by simp))]
    exact ih fun a ha => h a (by simp [ha])

theorem twApp {α : Type} {p : α → Bool} {l1 : List α} (l2 : List α)
    (h : ∀ a ∈ l1, p a = true) :
    (l1 ++ l2).takeWhile p = l1 ++ l2.takeWhile p := by
  induction l1 with
  | nil => rfl
  | cons c rest ih =>
    have ih' := ih fun a ha => h a (by simp [ha])
    rw [List.cons_append, List.takeWhile_cons, if_pos (h c (by simp)), ih']
    rfl

theorem dwApp {α : Type} {p : α → Bool} {l1 : List α} (l2 : List α)
    (h : ∀ a ∈ l1, p a = true) :
    (l1 ++ l2).dropWhile p = l2.dropWhile p := by
  induction l1 with
  | nil => rfl
  | cons c rest ih =>
    have ih' := ih fun a ha => h a (by simp [ha])
    rw [List.cons_append, List.dropWhile_cons, if_pos (h c (by simp)), ih']

theorem fence_false {c : Char} (h : c ≠ '\x60') (rest : List Char) :
    leadsWith "```".data (c :: rest) = false := by
  rw [show "```".data = ['\x60', '\x60', '\x60'] from rfl]
  simp [leadsWith]
  intro hc
  exact absurd hc.symm h

/-! Identity of the scanners on trigger-free text. -/

theorem replCR_id {l : List Char} (h : '\r' ∉ l) : replCR l = l := by
  induction l with
  | nil => rfl
  | cons c rest ih =>
    have hc : c ≠ '\r' := fun hh => h (by simp [hh])
    simp [replCR, hc]
    exact ih fun hh => h (by simp [hh])

theorem replCRLF_id {l : List Char} (h : '\r' ∉ l) : replCRLF l = l := by
  induction l using replCRLF.induct with
  | case1 => rfl
  | case2 c => rfl
  | case3 c d rest hcd ih =>
    have : ('\r' : Char) ∈ c :: d :: rest := by
      rw [← hcd.1]
      exact List.mem_cons_self ..
    exact absurd this h
  | case4 c d rest hcd ih =>
    rw [replCRLF, if_neg hcd]
    have : '\r' ∉ d :: rest := fun hh => h (List.mem_cons_of_mem c hh)
    rw [ih this]

theorem extractGo_id {l : List Char} (h : '\x60' ∉ l) :
    ∀ fuel acc, extractGo fuel acc l = (l, acc) := by
  induction l with
  | nil => intro fuel acc; cases fuel <;> rfl
  | cons c rest ih =>
    intro fuel acc
    cases fuel with
    | zero => rfl
    | succ fuel =>
      have hc : c ≠ '\x60' := fun hh => h (by simp [hh])
      rw [extractGo, if_neg (by simp [fence_false hc])]
      simp [ih (fun hh => h (by simp [hh])) fuel acc]

theorem inlineGo_id {l : List Char} (h : '\x60' ∉ l) :
    ∀ fuel, inlineGo fuel l = l := by
  induction l with
  | nil => intro fuel; cases fuel <;> rfl
  | cons c rest ih =>
    intro fuel
    cases fuel with
    | zero => rfl
    | succ fuel =>
      have hc : c ≠ '\x60' := fun hh => h (by simp [hh])
      rw [inlineGo, if_neg hc]
      rw [ih (fun hh => h (by simp [hh])) fuel]

theorem boldGo_id {d : Char} {l : List Char} (h : d ∉ l) :
    ∀ fuel, boldGo d fuel l = l := by
  induction l with
  | nil => intro fuel; cases fuel <;> rfl
  | cons c rest ih =>
    intro fuel
    cases fuel with
    | zero => rfl
    | succ fuel =>
      have hc : c ≠ d := fun hh => h (by simp [hh])
      have ih' := ih (fun hh => h (by simp [hh])) fuel
      conv_lhs => rw [boldGo.eq_def]
      simp [hc, ih']

theorem italGo_id {d : Char} {l : List Char} (h : d ∉ l) :
    ∀ fuel, italGo d fuel l = l := by
  induction l with
  | nil => intro fuel; cases fuel <;> rfl
  | cons c rest ih =>
    intro fuel
    cases fuel with
    | zero => rfl
    | succ fuel =>
      have hc : c ≠ d := fun hh => h (by simp [hh])
      rw [italGo, if_neg hc]
      rw [ih (fun hh => h (by simp [hh])) fuel]

theorem linksGo_id {l : List Char} (h : '[' ∉ l) :
    ∀ fuel, linksGo fuel l = l := by
  induction l with
  | nil => intro fuel; cases fuel <;> rfl
  | cons c rest ih =>
    intro fuel
    cases fuel with
    | zero => rfl
    | succ fuel =>
      have hc : c ≠ '[' := fun hh => h (by simp [hh])
      rw [linksGo, if_neg hc]
      rw [ih (fun hh => h (by simp [hh])) fuel]

theorem restoreGo_id {l : List Char} (h : '\x00' ∉ l) (blocks : List (List Char)) :
    ∀ fuel, restoreGo blocks fuel l = l := by
  induction l with
  | nil => intro fuel; cases fuel <;> rfl
  | cons c rest ih =>
    intro fuel
    cases fuel with
    | zero => rfl
    | succ fuel =>
      have hc : c ≠ '\x00' := fun hh => h (by simp [hh])
      rw [restoreGo, if_neg (by simp [hc])]
      rw [ih (fun hh => h (by simp [hh])) fuel]

/-! Character-wise description of `escapeHtml`. -/

theorem replaceCh_app (t : Char) (rep a b : List Char) :
    replaceCh t rep (a ++ b) = replaceCh t rep a ++ replaceCh t rep b := by
  induction a with
  | nil => rfl
  | cons c rest ih => simp [replaceCh, ih]

theorem escL_app (a b : List Char) : escL (a ++ b) = escL a ++ escL b := by
  simp [escL, replaceCh_app]

theorem escL_single (c : Char) : escL [c] = escChar c := by
  by_cases h1 : c = '&'
  · subst h1; decide
  by_cases h2 : c = '<'
  · subst h2; decide
  by_cases h3 : c = '>'
  · subst h3; decide
  by_cases h4 : c = '\x22'
  · subst h4; decide
  by_cases h5 : c = '\x27'
  · subst h5; decide
  simp [escL, replaceCh, escChar, h1, h2, h3, h4, h5]

theorem escL_charwise (l : List Char) : escL l = escAll l := by
  induction l with
  | nil => rfl
  | cons c rest ih =>
    rw [show c :: rest = [c] ++ rest from rfl, escL_app, escL_single, ih]
    rfl

theorem escAll_id {l : List Char} (h : ∀ c ∈ l, noSpecialChar c = true) :
    escAll l = l := by
  induction l with
  | nil => rfl
  | cons c rest ih =>
    have hc := h c (by simp)
    have hch : escChar c = [c] := by
      simp [noSpecialChar] at hc
      obtain ⟨⟨⟨⟨h1, h2⟩, h3⟩, h4⟩, h5⟩ := hc
      simp [escChar, h1, h2, h3, h4, h5]
    rw [escAll, hch, ih fun a ha => h a (by simp [ha])]
    rfl

/-- C7: `escapeHtml` is total over all strings (it is a function; in
    particular `escapeHtml "" = ""`), and the five sequential global
    replaces - ampersand first - amount to replacing each of the five
    characters `& < > " '` independently by its entity, so the
    ampersands introduced by the other four entities are never
    re-escaped; on a string containing none of the five characters it is
    the identity. -/
theorem c7_escapeHtml :
    (∀ s : String, escapeHtml s = ⟨escAll s.data⟩) ∧
    escapeHtml "" = "" ∧
    (∀ s : String, s.data.all noSpecialChar = true → escapeHtml s = s) := by
  refine ⟨fun s => ?_, rfl, fun s h => ?_⟩
  · simp [escapeHtml, escL_charwise]
  · have h' : ∀ c ∈ s.data, noSpecialChar c = true := by
      intro c hc
      exact List.all_eq_true.mp h c hc
    calc escapeHtml s = ⟨escAll s.data⟩ := by simp [escapeHtml, escL_charwise]
    _ = ⟨s.data⟩ := by rw [escAll_id h']
    _ = s := rfl

/-- C7 witness: the theorem applied at concrete inputs. -/
theorem c7_escapeHtml_witness :
    escapeHtml "plain text" = "plain text" ∧
    escapeHtml "a&b" = ⟨escAll "a&b".data⟩ := by
  exact ⟨c7_escapeHtml.2.2 "plain text" (by decide), c7_escapeHtml.1 "a&b"⟩

/-! Facts about line splitting, joining and the block loop. -/

theorem splitNl_ne_nil (l : List Char) : splitNl l ≠ [] := by
  induction l with
  | nil => simp [splitNl]
  | cons c rest ih =>
    rw [splitNl]
    split
    · simp
    · cases h : splitNl rest with
      | nil => exact absurd h ih
      | cons a as => simp

theorem mem_splitNl {c : Char} : ∀ {l ln : List Char}, ln ∈ splitNl l → c ∈ ln → c ∈ l := by
  intro l
  induction l with
  | nil =>
    intro ln hln hc
    simp [splitNl] at hln
    subst hln
    exact absurd hc (List.not_mem_nil c)
  | cons x rest ih =>
    intro ln hln hc
    rw [splitNl] at hln
    by_cases hx : x = '\n'
    · rw [if_pos hx] at hln
      rcases List.mem_cons.mp hln with h | h
      · subst h; exact absurd hc (List.not_mem_nil c)
      · exact List.mem_cons_of_mem x (ih h hc)
    · rw [if_neg hx] at hln
      cases hsp : splitNl rest with
      | nil => exact absurd hsp (splitNl_ne_nil rest)
      | cons a as =>
        rw [hsp] at hln
        rcases List.mem_cons.mp hln with h | h
        · subst h
          rcases List.mem_cons.mp hc with h | h
          · simp [h]
          · exact List.mem_cons_of_mem x (ih (hsp ▸ List.mem_cons_self a as) h)
        · exact List.mem_cons_of_mem x (ih (hsp ▸ List.mem_cons_of_mem a h) hc)

theorem mem_joinSp {c : Char} : ∀ {L : List (List Char)}, c ∈ joinSp L →
    c = ' ' ∨ ∃ ln ∈ L, c ∈ ln := by
  intro L
  induction L with
  | nil =>
    intro h
    exact absurd h (List.not_mem_nil c)
  | cons l rest ih =>
    intro h
    cases rest with
    | nil =>
      exact Or.inr ⟨l, by simp, h⟩
    | cons l2 ls =>
      rw [show joinSp (l :: l2 :: ls) = l ++ ' ' :: joinSp (l2 :: ls) from rfl] at h
      rcases List.mem_append.mp h with h | h
      · exact Or.inr ⟨l, by simp, h⟩
      · rcases List.mem_cons.mp h with h | h
        · exact Or.inl h
        · rcases ih h with h | ⟨ln, hln, hc⟩
          · exact Or.inl h
          · exact Or.inr ⟨ln, by simp [hln], hc⟩

theorem headingMatch_noHash {l : List Char} (h : '#' ∉ l) : headingMatch l = none := by
  cases l with
  | nil => rfl
  | cons c rest =>
    have hc : (c == '#') = false := by
      simp
      exact fun hh => h (by simp [hh])
    simp [headingMatch, List.takeWhile_cons, hc]

theorem paraStopHash_noHash {l : List Char} (h : '#' ∉ l) : paraStopHash l = false := by
  cases l with
  | nil => rfl
  | cons c rest =>
    have hc : (c == '#') = false := by
      simp
      exact fun hh => h (by simp [hh])
    simp [paraStopHash, List.takeWhile_cons, hc]

theorem containsSeq_noNull {l : List Char} (h : '\x00' ∉ l) :
    containsSeq phMark l = false := by
  induction l with
  | nil => rfl
  | cons c rest ih =>
    have hc : ('\x00' == c) = false := by
      simp
      exact fun hh => h (by simp [hh.symm])
    rw [containsSeq, show phMark = '\x00' :: "CODE_BLOCK_".data from rfl]
    rw [leadsWith]
    simp [hc]
    exact ih fun hh => h (by simp [hh])

theorem dwNilAll {p : Char → Bool} : ∀ {l : List Char}, l.dropWhile p = [] →
    ∀ c ∈ l, p c = true := by
  intro l
  induction l with
  | nil => intro _ c hc; exact absurd hc (List.not_mem_nil c)
  | cons x rest ih =>
    intro h c hc
    rw [List.dropWhile_cons] at h
    by_cases hx : p x = true
    · rw [if_pos hx] at h
      rcases List.mem_cons.mp hc with hh | hh
      · subst hh; exact hx
      · exact ih h c hh
    · rw [if_neg hx] at h
      exact absurd h (by simp)

theorem trimJs_blank {l : List Char} (h : (trimJs l).isEmpty = true) :
    ∀ c ∈ l, jsWs c = true := by
  have h0 : trimJs l = [] := by
    cases hh : trimJs l
    · rfl
    · rw [hh] at h; simp at h
  unfold trimJs at h0
  have h1 : (l.dropWhile jsWs).reverse.dropWhile jsWs = [] := by
    have := congrArg List.reverse h0
    simpa using this
  have h2 : ∀ c ∈ (l.dropWhile jsWs).reverse, jsWs c = true := dwNilAll h1
  have h3 : ∀ c ∈ l.dropWhile jsWs, jsWs c = true := by
    intro c hc
    exact h2 c (List.mem_reverse.mpr hc)
  intro c hc
  rw [← List.takeWhile_append_dropWhile (p := jsWs) (l := l)] at hc
  rcases List.mem_append.mp hc with hh | hh
  · exact List.mem_takeWhile_imp hh
  · exact h3 c hh

theorem jsWs_notMem {l : List Char} {c : Char} (hws : ∀ a ∈ l, jsWs a = true)
    (hc : jsWs c = false) : c ∉ l := by
  intro hmem
  rw [hws c hmem] at hc
  exact Bool.noConfusion hc

theorem blockGo_blank : ∀ (lines : List (List Char)) (fuel : Nat),
    (∀ ln ∈ lines, (trimJs ln).isEmpty = true) → lines.length + 1 ≤ fuel →
    blockGo fuel lines = some [] := by
  intro lines
  induction lines with
  | nil =>
    intro fuel _ hf
    cases fuel with
    | zero => omega
    | succ f => rfl
  | cons ln rest ih =>
    intro fuel hblank hf
    cases fuel with
    | zero => omega
    | succ f =>
      have hws : ∀ a ∈ ln, jsWs a = true := trimJs_blank (hblank ln (by simp))
      have hnohash : '#' ∉ ln := jsWs_notMem hws (by decide)
      have hnonull : '\x00' ∉ ln := jsWs_notMem hws (by decide)
      have hcs := containsSeq_noNull hnonull
      have htr := hblank ln (by simp)
      have ihh := ih f (fun a ha => hblank a (by simp [ha])) (by simp at hf ⊢; omega)
      rw [blockGo, headingMatch_noHash hnohash]
      simp [hcs, htr, ihh]

theorem paraStop_imp_headingMatch {l : List Char} (h : paraStopHash l = false) :
    headingMatch l = none := by
  unfold paraStopHash at h
  unfold headingMatch
  generalize ha : decide (1 ≤ (l.takeWhile fun c => c == '#').length) = a at *
  generalize hb : decide ((l.takeWhile fun c => c == '#').length ≤ 6) = b at *
  generalize hd : (match (l.dropWhile fun c => c == '#').head? with
                   | some c => jsWs c
                   | none => false) = d at *
  cases a <;> cases b <;> cases d <;> simp_all

theorem blockGo_para {l : List Char} {rest : List (List Char)}
    (hall : ∀ ln ∈ l :: rest, isParaLine ln = true) :
    ∀ f, blockGo (f + 2) (l :: rest) = some [pTag (l :: rest)] := by
  intro f
  have hl := hall l (by simp)
  simp only [isParaLine, Bool.and_eq_true, Bool.not_eq_true'] at hl
  obtain ⟨⟨htr, hps⟩, hcs⟩ := hl
  have hm := paraStop_imp_headingMatch hps
  have hnil : blockGo (f + 1) ([] : List (List Char)) = some [] := rfl
  rw [show f + 2 = (f + 1) + 1 from rfl, blockGo, hm]
  simp [hcs, htr, twAll hall, dwAll hall, hnil]

/-- C1 counterexample: on the plain text `a & b` - which contains no
    Markdown syntax - `parseMarkdown` emits the paragraph with the
    ampersand raw, not HTML-escaped, so the output differs from the
    claimed `<p>` + escaped text + `</p>`. -/
theorem c1_counterexample :
    parseMarkdown "a & b" = some "<p>a & b</p>" ∧
    some "<p>a & b</p>" ≠ some ("<p>" ++ escapeHtml "a & b" ++ "</p>") := by
  constructor
  · decide
  · decide

/-- C1 (amended): for text whose characters are free of Markdown
    syntax (`mdFree`: no hashes, backticks, emphasis markers, link
    openers, placeholder sentinels or carriage returns), `parseMarkdown`
    returns `<p>` followed by the lines joined with single spaces -
    NOT HTML-escaped - followed by `</p>` when every line is non-blank,
    and the empty string when every line is blank. -/
theorem c1_plain_paragraph (t : String) (hfree : t.data.all mdFree = true) :
    ((splitNl t.data).all (fun ln => !(trimJs ln).isEmpty) = true →
      parseMarkdown t = some ⟨"<p>".data ++ joinSp (splitNl t.data) ++ "</p>".data⟩) ∧
    ((splitNl t.data).all (fun ln => (trimJs ln).isEmpty) = true →
      parseMarkdown t = some "") := by
  have hfreeAll : ∀ c ∈ t.data, mdFree c = true := List.all_eq_true.mp hfree
  have hnoCR : '\r' ∉ t.data := fun h => absurd (hfreeAll '\r' h) (by decide)
  have hnoBT : '\x60' ∉ t.data := fun h => absurd (hfreeAll '\x60' h) (by decide)
  have hn : replCR (replCRLF t.data) = t.data := by
    rw [replCRLF_id hnoCR, replCR_id hnoCR]
  have hchar : ∀ ln ∈ splitNl t.data, ∀ c ∈ ln, mdFree c = true :=
    fun ln hln c hc => hfreeAll c (mem_splitNl hln hc)
  constructor
  · intro hnb
    have hnb' : ∀ ln ∈ splitNl t.data, (trimJs ln).isEmpty = false := by
      intro ln hln
      have := List.all_eq_true.mp hnb ln hln
      simpa using this
    have hpara : ∀ ln ∈ splitNl t.data, isParaLine ln = true := by
      intro ln hln
      have hnohash : '#' ∉ ln := fun h => absurd (hchar ln hln '#' h) (by decide)
      have hnonull : '\x00' ∉ ln := fun h => absurd (hchar ln hln '\x00' h) (by decide)
      simp [isParaLine, paraStopHash_noHash hnohash, containsSeq_noNull hnonull,
        hnb' ln hln]
    obtain ⟨l, rest, hlr⟩ : ∃ l rest, splitNl t.data = l :: rest := by
      cases h : splitNl t.data with
      | nil => exact absurd h (splitNl_ne_nil _)
      | cons a as => exact ⟨a, as, rfl⟩
    have hblock : processBlockElements t.data = some (pTag (splitNl t.data)) := by
      unfold processBlockElements
      rw [hlr]
      rw [show (l :: rest).length + 1 = rest.length + 2 by simp]
      rw [blockGo_para (hlr ▸ hpara) rest.length]
      rfl
    have hbmem : ∀ c ∈ pTag (splitNl t.data),
        c = '<' ∨ c = 'p' ∨ c = '>' ∨ c = '/' ∨ c = ' ' ∨
          ∃ ln ∈ splitNl t.data, c ∈ ln := by
      intro c hc
      unfold pTag at hc
      rcases List.mem_append.mp hc with hc | hc
      · rcases List.mem_append.mp hc with hc | hc
        · simp at hc
          tauto
        · rcases mem_joinSp hc with h | h
          · tauto
          · exact Or.inr (Or.inr (Or.inr (Or.inr (Or.inr h))))
      · simp at hc
        tauto
    have hbNot : ∀ τ : Char, mdFree τ = false → τ ≠ '<' → τ ≠ 'p' → τ ≠ '>' →
        τ ≠ '/' → τ ≠ ' ' → τ ∉ pTag (splitNl t.data) := by
      intro τ hτ h1 h2 h3 h4 h5 hmem
      rcases hbmem τ hmem with h | h | h | h | h | ⟨ln, hln, hc⟩
      · exact h1 h
      · exact h2 h
      · exact h3 h
      · exact h4 h
      · exact h5 h
      · rw [hchar ln hln τ hc] at hτ
        exact Bool.noConfusion hτ
    have hb60 : '\x60' ∉ pTag (splitNl t.data) :=
      hbNot '\x60' (by decide) (by decide) (by decide) (by decide) (by decide) (by decide)
    have hbStar : '*' ∉ pTag (splitNl t.data) :=
      hbNot '*' (by decide) (by decide) (by decide) (by decide) (by decide) (by decide)
    have hbUnd : '_' ∉ pTag (splitNl t.data) :=
      hbNot '_' (by decide) (by decide) (by decide) (by decide) (by decide) (by decide)
    have hbLB : '[' ∉ pTag (splitNl t.data) :=
      hbNot '[' (by decide) (by decide) (by decide) (by decide) (by decide) (by decide)
    have hbNull : '\x00' ∉ pTag (splitNl t.data) :=
      hbNot '\x00' (by decide) (by decide) (by decide) (by decide) (by decide) (by decide)
    show parseMarkdown t = _
    simp only [parseMarkdown]
    rw [hn]
    rw [extractGo_id hnoBT]
    simp only
    rw [hblock]
    simp only [Option.map]
    rw [inlineGo_id hb60, boldGo_id hbStar, boldGo_id hbUnd, italGo_id hbStar,
      italGo_id hbUnd, linksGo_id hbLB, restoreGo_id hbNull]
    rfl
  · intro hbl
    have hbl' : ∀ ln ∈ splitNl t.data, (trimJs ln).isEmpty = true :=
      fun ln hln => List.all_eq_true.mp hbl ln hln
    have hblock : processBlockElements t.data = some [] := by
      unfold processBlockElements
      rw [blockGo_blank _ _ hbl' (le_refl _)]
      rfl
    show parseMarkdown t = _
    simp only [parseMarkdown]
    rw [hn]
    rw [extractGo_id hnoBT]
    simp only
    rw [hblock]
    simp only [Option.map]
    have e1 : '\x60' ∉ ([] : List Char) := by simp
    have e2 : '*' ∉ ([] : List Char) := by simp
    have e3 : '_' ∉ ([] : List Char) := by simp
    have e4 : '[' ∉ ([] : List Char) := by simp
    have e5 : '\x00' ∉ ([] : List Char) := by simp
    rw [inlineGo_id e1, boldGo_id e2, boldGo_id e3, italGo_id e2, italGo_id e3,
      linksGo_id e4, restoreGo_id e5]

/-- C1 witness: the amended theorem applied at concrete inputs - a
    non-blank two-line paragraph and a blank input. -/
theorem c1_plain_paragraph_witness :
    parseMarkdown "ab\ncd" = some "<p>ab cd</p>" ∧ parseMarkdown "  " = some "" := by
  have h1 := (c1_plain_paragraph "ab\ncd" (by decide)).1 (by decide)
  have h2 := (c1_plain_paragraph "  " (by decide)).2 (by decide)
  refine ⟨?_, h2⟩
  rw [h1]
  decide

/-! Facts for the heading claim. -/

theorem mem_trimJs {c : Char} {l : List Char} (h : c ∈ trimJs l) : c ∈ l := by
  have aux : ∀ m : List Char, c ∈ m.dropWhile jsWs → c ∈ m := by
    intro m hm
    rw [← List.takeWhile_append_dropWhile (p := jsWs) (l := m)]
    exact List.mem_append.mpr (Or.inr hm)
  unfold trimJs at h
  exact aux l (List.mem_reverse.mp (aux _ (List.mem_reverse.mp h)))

theorem trimJs_nonblank {l : List Char} (h : ∃ c ∈ l, jsWs c = false) :
    (trimJs l).isEmpty = false := by
  cases he : (trimJs l).isEmpty
  · rfl
  · obtain ⟨c, hc, hcw⟩ := h
    rw [trimJs_blank he c hc] at hcw
    exact Bool.noConfusion hcw

theorem splitNl_noNl {l : List Char} (h : '\n' ∉ l) : splitNl l = [l] := by
  induction l with
  | nil => rfl
  | cons c rest ih =>
    have hc : c ≠ '\n' := fun hh => h (by simp [hh])
    rw [splitNl, if_neg hc, ih fun hh => h (by simp [hh])]

theorem blockGo_heading {l : List Char} {lvl : Nat} {content : List Char}
    (hm : headingMatch l = some (lvl, content)) :
    ∀ f, blockGo (f + 2) [l] = some [hTag lvl content] := by
  intro f
  rw [show f + 2 = (f + 1) + 1 from rfl, blockGo, hm]
  rfl

theorem hashRun_all (h : Nat) : ∀ a ∈ hashRun h, (a == '#') = true := by
  intro a ha
  rw [List.eq_of_mem_replicate ha]
  rfl

theorem hashRun_noMem {c : Char} (hc : c ≠ '#') (h : Nat) : c ∉ hashRun h := by
  intro hmem
  exact hc (List.eq_of_mem_replicate hmem)

theorem mem_dropWhile {p : Char → Bool} {c : Char} {l : List Char}
    (h : c ∈ l.dropWhile p) : c ∈ l := by
  rw [← List.takeWhile_append_dropWhile (p := p) (l := l)]
  exact List.mem_append.mpr (Or.inr h)

theorem inlFree_not_lineTerm {c : Char} (h : inlFree c = true) : isLineTerm c = false := by
  cases hl : isLineTerm c
  · rfl
  · exfalso
    have hl4 : c = '\n' ∨ c = '\r' ∨ c = '\u2028' ∨ c = '\u2029' := by
      simpa [isLineTerm, or_assoc] using hl
    rcases hl4 with h1 | h1 | h1 | h1 <;> (subst h1; exact absurd h (by decide))

/-- C8: on a single line made of 1-6 leading hashes, then whitespace,
    then content (`inlFree` keeps the content on one line and out of
    reach of the inline stages), `parseMarkdown` emits `<hN>..</hN>`
    with `N` the hash count and the trimmed remainder as content; a
    line with 7 or more leading hashes, and a hash run with no
    following whitespace, are never headings and fall through to
    paragraph text. -/
theorem c8_heading_lines :
    (∀ (h : Nat) (ws rest : List Char),
      1 ≤ h → h ≤ 6 →
      ws ≠ [] → (∀ c ∈ ws, c = ' ' ∨ c = '\t') →
      (∃ c ∈ rest, jsWs c = false) → (∀ c ∈ rest, inlFree c = true) →
      parseMarkdown ⟨hashRun h ++ ws ++ rest⟩ = some ⟨hTag h (trimJs rest)⟩) ∧
    (∀ (h : Nat) (ws rest : List Char),
      7 ≤ h →
      ws ≠ [] → (∀ c ∈ ws, c = ' ' ∨ c = '\t') →
      (∀ c ∈ rest, inlFree c = true) →
      parseMarkdown ⟨hashRun h ++ ws ++ rest⟩ =
        some ⟨pTag [hashRun h ++ ws ++ rest]⟩) ∧
    (∀ (h : Nat) (r0 : Char) (rtl : List Char),
      1 ≤ h → jsWs r0 = false → r0 ≠ '#' → (∀ c ∈ r0 :: rtl, inlFree c = true) →
      parseMarkdown ⟨hashRun h ++ r0 :: rtl⟩ =
        some ⟨pTag [hashRun h ++ r0 :: rtl]⟩) := by
  -- shared facts
  have wsFacts : ∀ {ws : List Char}, (∀ c ∈ ws, c = ' ' ∨ c = '\t') →
      ∀ c ∈ ws, jsWs c = true ∧ c ≠ '#' ∧ c ≠ '\r' ∧ c ≠ '\x60' ∧ c ≠ '\x00' ∧
        c ≠ '\n' ∧ c ≠ '*' ∧ c ≠ '_' ∧ c ≠ '[' := by
    intro ws hws c hc
    rcases hws c hc with h | h <;> subst h <;> exact ⟨by decide, by decide, by decide,
      by decide, by decide, by decide, by decide, by decide⟩
  have restFacts : ∀ {rest : List Char}, (∀ c ∈ rest, inlFree c = true) →
      ∀ c ∈ rest, c ≠ '\r' ∧ c ≠ '\x60' ∧ c ≠ '\x00' ∧ c ≠ '\n' ∧ c ≠ '*' ∧
        c ≠ '_' ∧ c ≠ '[' := by
    intro rest hrest c hc
    have := hrest c hc
    refine ⟨?_, ?_, ?_, ?_, ?_, ?_, ?_⟩ <;>
      (intro hh; subst hh; exact absurd this (by decide))
  have hashFacts : ∀ (h : Nat) (c : Char), c ∈ hashRun h → c = '#' :=
    fun h c hc => List.eq_of_mem_replicate hc
  refine ⟨?_, ?_, ?_⟩
  -- part 1: 1..6 hashes, whitespace, content: a heading
  · intro h ws rest h1 h6 hwsne hws hex hrest
    obtain ⟨w0, ws', rfl⟩ : ∃ w0 ws', ws = w0 :: ws' := by
      cases ws with
      | nil => exact absurd rfl hwsne
      | cons a as => exact ⟨a, as, rfl⟩
    obtain ⟨r0, rtl, rfl⟩ : ∃ r0 rtl, rest = r0 :: rtl := by
      cases rest with
      | nil =>
        obtain ⟨c, hc, _⟩ := hex
        exact absurd hc (List.not_mem_nil c)
      | cons a as => exact ⟨a, as, rfl⟩
    set line := hashRun h ++ (w0 :: ws') ++ (r0 :: rtl) with hline
    have hw0 : (w0 == '#') = false := by
      rcases hws w0 (by simp) with hh | hh <;> simp [hh]
    have htw : line.takeWhile (fun c => c == '#') = hashRun h := by
      rw [hline, List.append_assoc, twApp _ (hashRun_all h), List.cons_append,
        List.takeWhile_cons, hw0]
      simp
    have hdw : line.dropWhile (fun c => c == '#') = (w0 :: ws') ++ (r0 :: rtl) := by
      rw [hline, List.append_assoc, dwApp _ (hashRun_all h), List.cons_append,
        List.dropWhile_cons, hw0]
      simp
    have hm : headingMatch line = some (h, trimJs ((w0 :: ws') ++ (r0 :: rtl))) := by
      have hwsall : ∀ c ∈ w0 :: ws', jsWs c = true := fun c hc => (wsFacts hws c hc).1
      have htl : ((w0 :: ws') ++ (r0 :: rtl)).dropWhile jsWs =
          (r0 :: rtl).dropWhile jsWs := dwApp _ hwsall
      have htlne : (r0 :: rtl).dropWhile jsWs ≠ [] := by
        intro hnil
        obtain ⟨cnw, hcnw, hcnwws⟩ := hex
        rw [dwNilAll hnil cnw hcnw] at hcnwws
        exact Bool.noConfusion hcnwws
      have hie : ((r0 :: rtl).dropWhile jsWs).isEmpty = false := by
        cases hdd : (r0 :: rtl).dropWhile jsWs
        · exact absurd hdd htlne
        · rfl
      have htlall : ∀ x ∈ (r0 :: rtl).dropWhile jsWs, isLineTerm x = false :=
        fun x hx => inlFree_not_lineTerm (hrest x (mem_dropWhile hx))
      have hws0 : jsWs w0 = true := (wsFacts hws w0 (by simp)).1
      simp only [headingMatch]
      rw [htw, hdw, htl]
      simp only [hashRun, List.length_replicate]
      simp [h1, h6, hws0, hie]
      exact htlall
    have htrim : trimJs ((w0 :: ws') ++ (r0 :: rtl)) = trimJs (r0 :: rtl) := by
      unfold trimJs
      rw [dwApp _ (fun c hc => (wsFacts hws c hc).1)]
    -- the line has no newline, no carriage return, no backtick, no null
    have hnoNl : '\n' ∉ line := by
      intro hmem
      rw [hline] at hmem
      rcases List.mem_append.mp hmem with hmem | hmem
      · rcases List.mem_append.mp hmem with hmem | hmem
        · exact absurd (hashFacts h _ hmem) (by decide)
        · exact absurd rfl (wsFacts hws _ hmem).2.2.2.2.2.1
      · exact absurd rfl (restFacts hrest _ hmem).2.2.2.1
    have hnoCR : '\r' ∉ line := by
      intro hmem
      rw [hline] at hmem
      rcases List.mem_append.mp hmem with hmem | hmem
      · rcases List.mem_append.mp hmem with hmem | hmem
        · exact absurd (hashFacts h _ hmem) (by decide)
        · exact absurd rfl (wsFacts hws _ hmem).2.2.1
      · exact absurd rfl (restFacts hrest _ hmem).1
    have hnoBT : '\x60' ∉ line := by
      intro hmem
      rw [hline] at hmem
      rcases List.mem_append.mp hmem with hmem | hmem
      · rcases List.mem_append.mp hmem with hmem | hmem
        · exact absurd (hashFacts h _ hmem) (by decide)
        · exact absurd rfl (wsFacts hws _ hmem).2.2.2.1
      · exact absurd rfl (restFacts hrest _ hmem).2.1
    -- block stage
    have hblock : processBlockElements line = some (hTag h (trimJs (r0 :: rtl))) := by
      unfold processBlockElements
      rw [splitNl_noNl hnoNl]
      rw [show ([line] : List (List Char)).length + 1 = 0 + 2 from rfl]
      rw [blockGo_heading (htrim ▸ hm) 0]
      rfl
    -- the emitted heading has no inline triggers
    have hrep : ∀ d ∈ (Nat.repr h).data, d.isDigit = true := by
      interval_cases h <;> decide
    have htagmem : ∀ τ ∈ hTag h (trimJs (r0 :: rtl)),
        (τ = '<' ∨ τ = 'h' ∨ τ = '>' ∨ τ = '/') ∨ τ.isDigit = true ∨
          τ ∈ r0 :: rtl := by
      intro τ hτ
      unfold hTag at hτ
      simp only [List.append_assoc, List.mem_append] at hτ
      rcases hτ with h1 | h1 | h1 | h1 | h1 | h1 | h1
      · left; simp at h1; tauto
      · right; left; exact hrep τ h1
      · left; simp at h1; tauto
      · right; right; exact mem_trimJs h1
      · left; simp at h1; tauto
      · right; left; exact hrep τ h1
      · left; simp at h1; tauto
    have htNot : ∀ τ : Char, τ ≠ '<' → τ ≠ 'h' → τ ≠ '>' → τ ≠ '/' →
        τ.isDigit = false → inlFree τ = false → τ ∉ hTag h (trimJs (r0 :: rtl)) := by
      intro τ e1 e2 e3 e4 e5 e6 hmem
      rcases htagmem τ hmem with hh | hh | hh
      · tauto
      · rw [hh] at e5; exact Bool.noConfusion e5
      · rw [hrest τ hh] at e6; exact Bool.noConfusion e6
    have hb60 := htNot '\x60' (by decide) (by decide) (by decide) (by decide)
      (by decide) (by decide)
    have hbStar := htNot '*' (by decide) (by decide) (by decide) (by decide)
      (by decide) (by decide)
    have hbUnd := htNot '_' (by decide) (by decide) (by decide) (by decide)
      (by decide) (by decide)
    have hbLB := htNot '[' (by decide) (by decide) (by decide) (by decide)
      (by decide) (by decide)
    have hbNull := htNot '\x00' (by decide) (by decide) (by decide) (by decide)
      (by decide) (by decide)
    show parseMarkdown ⟨line⟩ = _
    simp only [parseMarkdown]
    rw [replCRLF_id hnoCR, replCR_id hnoCR]
    rw [extractGo_id hnoBT]
    simp only
    rw [hblock]
    simp only [Option.map]
    rw [inlineGo_id hb60, boldGo_id hbStar, boldGo_id hbUnd, italGo_id hbStar,
      italGo_id hbUnd, linksGo_id hbLB, restoreGo_id hbNull]
  -- part 2: 7 or more hashes fall through to a paragraph
  · intro h ws rest h7 hwsne hws hrest
    obtain ⟨w0, ws', rfl⟩ : ∃ w0 ws', ws = w0 :: ws' := by
      cases ws with
      | nil => exact absurd rfl hwsne
      | cons a as => exact ⟨a, as, rfl⟩
    set line := hashRun h ++ (w0 :: ws') ++ rest with hline
    have hw0 : (w0 == '#') = false := by
      rcases hws w0 (by simp) with hh | hh <;> simp [hh]
    have htw : line.takeWhile (fun c => c == '#') = hashRun h := by
      rw [hline, List.append_assoc, twApp _ (hashRun_all h), List.cons_append,
        List.takeWhile_cons, hw0]
      simp
    have hps : paraStopHash line = false := by
      unfold paraStopHash
      rw [htw]
      simp only [hashRun, List.length_replicate]
      have : decide (h ≤ 6) = false := by
        simp
        omega
      simp [this]
    have hmem_line : ∀ c ∈ line, c = '#' ∨ c = ' ' ∨ c = '\t' ∨ c ∈ rest := by
      intro c hc
      rw [hline] at hc
      rcases List.mem_append.mp hc with hc | hc
      · rcases List.mem_append.mp hc with hc | hc
        · exact Or.inl (hashFacts h c hc)
        · rcases hws c hc with hh | hh
          · exact Or.inr (Or.inl hh)
          · exact Or.inr (Or.inr (Or.inl hh))
      · exact Or.inr (Or.inr (Or.inr hc))
    have hlNot : ∀ τ : Char, τ ≠ '#' → τ ≠ ' ' → τ ≠ '\t' → inlFree τ = false →
        τ ∉ line := by
      intro τ e1 e2 e3 e4 hmem
      rcases hmem_line τ hmem with hh | hh | hh | hh
      · exact e1 hh
      · exact e2 hh
      · exact e3 hh
      · rw [hrest τ hh] at e4; exact Bool.noConfusion e4
    have hnoNl : '\n' ∉ line := hlNot '\n' (by decide) (by decide) (by decide) (by decide)
    have hnoCR : '\r' ∉ line := hlNot '\r' (by decide) (by decide) (by decide) (by decide)
    have hnoBT : '\x60' ∉ line := hlNot '\x60' (by decide) (by decide) (by decide) (by decide)
    have hnoNull : '\x00' ∉ line := hlNot '\x00' (by decide) (by decide) (by decide) (by decide)
    have hpl : isParaLine line = true := by
      have htr : (trimJs line).isEmpty = false := by
        apply trimJs_nonblank
        refine ⟨'#', ?_, by decide⟩
        rw [hline]
        refine List.mem_append.mpr (Or.inl (List.mem_append.mpr (Or.inl ?_)))
        rw [hashRun]
        exact List.mem_replicate.mpr ⟨by omega, rfl⟩
      simp [isParaLine, htr, hps, containsSeq_noNull hnoNull]
    have hblock : processBlockElements line = some (pTag [line]) := by
      unfold processBlockElements
      rw [splitNl_noNl hnoNl]
      rw [show ([line] : List (List Char)).length + 1 = 0 + 2 from rfl]
      rw [blockGo_para (fun ln hln => by rw [List.mem_singleton.mp hln]; exact hpl) 0]
      rfl
    have hpmem : ∀ τ ∈ pTag [line], (τ = '<' ∨ τ = 'p' ∨ τ = '>' ∨ τ = '/') ∨ τ ∈ line := by
      intro τ hτ
      unfold pTag at hτ
      rcases List.mem_append.mp hτ with hτ | hτ
      · rcases List.mem_append.mp hτ with hτ | hτ
        · left; simp at hτ; tauto
        · right; exact hτ
      · left; simp at hτ; tauto
    have hpNot : ∀ τ : Char, τ ≠ '<' → τ ≠ 'p' → τ ≠ '>' → τ ≠ '/' → τ ∉ line →
        τ ∉ pTag [line] := by
      intro τ e1 e2 e3 e4 e5 hmem
      rcases hpmem τ hmem with hh | hh
      · tauto
      · exact e5 hh
    have hb60 := hpNot '\x60' (by decide) (by decide) (by decide) (by decide)
      (hlNot '\x60' (by decide) (by decide) (by decide) (by decide))
    have hbStar := hpNot '*' (by decide) (by decide) (by decide) (by decide)
      (hlNot '*' (by decide) (by decide) (by decide) (by decide))
    have hbUnd := hpNot '_' (by decide) (by decide) (by decide) (by decide)
      (hlNot '_' (by decide) (by decide) (by decide) (by decide))
    have hbLB := hpNot '[' (by decide) (by decide) (by decide) (by decide)
      (hlNot '[' (by decide) (by decide) (by decide) (by decide))
    have hbNull := hpNot '\x00' (by decide) (by decide) (by decide) (by decide) hnoNull
    show parseMarkdown ⟨line⟩ = _
    simp only [parseMarkdown]
    rw [replCRLF_id hnoCR, replCR_id hnoCR]
    rw [extractGo_id hnoBT]
    simp only
    rw [hblock]
    simp only [Option.map]
    rw [inlineGo_id hb60, boldGo_id hbStar, boldGo_id hbUnd, italGo_id hbStar,
      italGo_id hbUnd, linksGo_id hbLB, restoreGo_id hbNull]
  -- part 3: a hash run with no following whitespace is a paragraph
  · intro h r0 rtl h1 hr0ws hr0hash hrest
    set line := hashRun h ++ r0 :: rtl with hline
    have hr0 : (r0 == '#') = false := by simp [hr0hash]
    have htw : line.takeWhile (fun c => c == '#') = hashRun h := by
      rw [hline, twApp _ (hashRun_all h), List.takeWhile_cons, hr0]
      simp
    have hdw : line.dropWhile (fun c => c == '#') = r0 :: rtl := by
      rw [hline, dwApp _ (hashRun_all h), List.dropWhile_cons, hr0]
      simp
    have hps : paraStopHash line = false := by
      unfold paraStopHash
      rw [htw, hdw]
      simp [hr0ws]
    have hmem_line : ∀ c ∈ line, c = '#' ∨ c ∈ r0 :: rtl := by
      intro c hc
      rw [hline] at hc
      rcases List.mem_append.mp hc with hc | hc
      · exact Or.inl (hashFacts h c hc)
      · exact Or.inr hc
    have hlNot : ∀ τ : Char, τ ≠ '#' → inlFree τ = false → τ ∉ line := by
      intro τ e1 e4 hmem
      rcases hmem_line τ hmem with hh | hh
      · exact e1 hh
      · rw [hrest τ hh] at e4; exact Bool.noConfusion e4
    have hnoNl : '\n' ∉ line := hlNot '\n' (by decide) (by decide)
    have hnoCR : '\r' ∉ line := hlNot '\r' (by decide) (by decide)
    have hnoBT : '\x60' ∉ line := hlNot '\x60' (by decide) (by decide)
    have hnoNull : '\x00' ∉ line := hlNot '\x00' (by decide) (by decide)
    have hpl : isParaLine line = true := by
      have htr : (trimJs line).isEmpty = false := by
        apply trimJs_nonblank
        refine ⟨r0, ?_, hr0ws⟩
        rw [hline]
        simp
      simp [isParaLine, htr, hps, containsSeq_noNull hnoNull]
    have hblock : processBlockElements line = some (pTag [line]) := by
      unfold processBlockElements
      rw [splitNl_noNl hnoNl]
      rw [show ([line] : List (List Char)).length + 1 = 0 + 2 from rfl]
      rw [blockGo_para (fun ln hln => by rw [List.mem_singleton.mp hln]; exact hpl) 0]
      rfl
    have hpmem : ∀ τ ∈ pTag [line], (τ = '<' ∨ τ = 'p' ∨ τ = '>' ∨ τ = '/') ∨ τ ∈ line := by
      intro τ hτ
      unfold pTag at hτ
      rcases List.mem_append.mp hτ with hτ | hτ
      · rcases List.mem_append.mp hτ with hτ | hτ
        · left; simp at hτ; tauto
        · right; exact hτ
      · left; simp at hτ; tauto
    have hpNot : ∀ τ : Char, τ ≠ '<' → τ ≠ 'p' → τ ≠ '>' → τ ≠ '/' → τ ∉ line →
        τ ∉ pTag [line] := by
      intro τ e1 e2 e3 e4 e5 hmem
      rcases hpmem τ hmem with hh | hh
      · tauto
      · exact e5 hh
    have hb60 := hpNot '\x60' (by decide) (by decide) (by decide) (by decide)
      (hlNot '\x60' (by decide) (by decide))
    have hbStar := hpNot '*' (by decide) (by decide) (by decide) (by decide)
      (hlNot '*' (by decide) (by decide))
    have hbUnd := hpNot '_' (by decide) (by decide) (by decide) (by decide)
      (hlNot '_' (by decide) (by decide))
    have hbLB := hpNot '[' (by decide) (by decide) (by decide) (by decide)
      (hlNot '[' (by decide) (by decide))
    have hbNull := hpNot '\x00' (by decide) (by decide) (by decide) (by decide) hnoNull
    show parseMarkdown ⟨line⟩ = _
    simp only [parseMarkdown]
    rw [replCRLF_id hnoCR, replCR_id hnoCR]
    rw [extractGo_id hnoBT]
    simp only
    rw [hblock]
    simp only [Option.map]
    rw [inlineGo_id hb60, boldGo_id hbStar, boldGo_id hbUnd, italGo_id hbStar,
      italGo_id hbUnd, linksGo_id hbLB, restoreGo_id hbNull]

/-- C8 witness: the three parts applied at `## Hi`, `####### x` and
    `#NoSpace`. -/
theorem c8_heading_lines_witness :
    parseMarkdown "## Hi" = some "<h2>Hi</h2>" ∧
    parseMarkdown "####### x" = some "<p>####### x</p>" ∧
    parseMarkdown "#NoSpace" = some "<p>#NoSpace</p>" := by
  have h1 := c8_heading_lines.1 2 [' '] "Hi".data (by decide) (by decide) (by decide)
    (by decide) (by decide) (by decide)
  have h2 := c8_heading_lines.2.1 7 [' '] "x".data (by decide) (by decide) (by decide)
    (by decide)
  have h3 := c8_heading_lines.2.2 1 'N' "oSpace".data (by decide) (by decide)
    (by decide) (by decide)
  refine ⟨?_, ?_, ?_⟩
  · rw [show ("## Hi" : String) = ⟨hashRun 2 ++ [' '] ++ "Hi".data⟩ by decide, h1]
    decide
  · rw [show ("####### x" : String) = ⟨hashRun 7 ++ [' '] ++ "x".data⟩ by decide, h2]
    decide
  · rw [show ("#NoSpace" : String) = ⟨hashRun 1 ++ 'N' :: "oSpace".data⟩ by decide, h3]
    decide

/-! Link and inline-code computations on a single well-formed occurrence. -/

theorem strData_app (a b : String) : (a ++ b).data = a.data ++ b.data := by
  cases a
  cases b
  rfl

theorem linksGo_nil : ∀ fuel, linksGo fuel [] = [] := by
  intro fuel
  cases fuel <;> rfl

theorem linksRawGo_nil : ∀ fuel, V2.linksRawGo fuel [] = [] := by
  intro fuel
  cases fuel <;> rfl

theorem inlineGo_nil : ∀ fuel, inlineGo fuel [] = [] := by
  intro fuel
  cases fuel <;> rfl

theorem linksGo_single {lt url : List Char} (hlt : lt ≠ [])
    (hlt2 : ∀ c ∈ lt, (c != ']') = true) (hu : url ≠ [])
    (hu2 : ∀ c ∈ url, (c != ')') = true) (fuel : Nat) :
    linksGo (fuel + 1) ('[' :: (lt ++ (']' :: '(' :: (url ++ [')'])))) =
      "<a href=\x22".data ++ escL url ++ "\x22>".data ++ lt ++ "</a>".data := by
  obtain ⟨l0, lts, rfl⟩ : ∃ l0 lts, lt = l0 :: lts := by
    cases lt with
    | nil => exact absurd rfl hlt
    | cons a as => exact ⟨a, as, rfl⟩
  obtain ⟨u0, us, rfl⟩ : ∃ u0 us, url = u0 :: us := by
    cases url with
    | nil => exact absurd rfl hu
    | cons a as => exact ⟨a, as, rfl⟩
  have htw1 : ((l0 :: lts) ++ (']' :: '(' :: ((u0 :: us) ++ [')']))).takeWhile
      (fun x => x != ']') = l0 :: lts := by
    rw [twApp _ hlt2, List.takeWhile_cons]
    simp
  have hdw1 : ((l0 :: lts) ++ (']' :: '(' :: ((u0 :: us) ++ [')']))).dropWhile
      (fun x => x != ']') = ']' :: '(' :: ((u0 :: us) ++ [')']) := by
    rw [dwApp _ hlt2, List.dropWhile_cons]
    simp
  have htw2 : ((u0 :: us) ++ [')']).takeWhile (fun x => x != ')') = u0 :: us := by
    rw [twApp _ hu2, List.takeWhile_cons]
    simp
  have hdw2 : ((u0 :: us) ++ [')']).dropWhile (fun x => x != ')') = [')'] := by
    rw [dwApp _ hu2, List.dropWhile_cons]
    simp
  conv_lhs => rw [linksGo.eq_def]
  simp only [htw1, hdw1, htw2, hdw2]
  simp [linksGo_nil]

theorem linksRawGo_single {lt url : List Char} (hlt : lt ≠ [])
    (hlt2 : ∀ c ∈ lt, (c != ']') = true) (hu : url ≠ [])
    (hu2 : ∀ c ∈ url, (c != ')') = true) (fuel : Nat) :
    V2.linksRawGo (fuel + 1) ('[' :: (lt ++ (']' :: '(' :: (url ++ [')'])))) =
      "<a href=\x22".data ++ url ++ "\x22>".data ++ lt ++ "</a>".data := by
  obtain ⟨l0, lts, rfl⟩ : ∃ l0 lts, lt = l0 :: lts := by
    cases lt with
    | nil => exact absurd rfl hlt
    | cons a as => exact ⟨a, as, rfl⟩
  obtain ⟨u0, us, rfl⟩ : ∃ u0 us, url = u0 :: us := by
    cases url with
    | nil => exact absurd rfl hu
    | cons a as => exact ⟨a, as, rfl⟩
  have htw1 : ((l0 :: lts) ++ (']' :: '(' :: ((u0 :: us) ++ [')']))).takeWhile
      (fun x => x != ']') = l0 :: lts := by
    rw [twApp _ hlt2, List.takeWhile_cons]
    simp
  have hdw1 : ((l0 :: lts) ++ (']' :: '(' :: ((u0 :: us) ++ [')']))).dropWhile
      (fun x => x != ']') = ']' :: '(' :: ((u0 :: us) ++ [')']) := by
    rw [dwApp _ hlt2, List.dropWhile_cons]
    simp
  have htw2 : ((u0 :: us) ++ [')']).takeWhile (fun x => x != ')') = u0 :: us := by
    rw [twApp _ hu2, List.takeWhile_cons]
    simp
  have hdw2 : ((u0 :: us) ++ [')']).dropWhile (fun x => x != ')') = [')'] := by
    rw [dwApp _ hu2, List.dropWhile_cons]
    simp
  conv_lhs => rw [V2.linksRawGo.eq_def]
  simp only [htw1, hdw1, htw2, hdw2]
  simp [linksRawGo_nil]

theorem inlineGo_single {code : List Char} (hc : code ≠ [])
    (hc2 : ∀ c ∈ code, (c != '\x60') = true) (fuel : Nat) :
    inlineGo (fuel + 1) ('\x60' :: (code ++ ['\x60'])) =
      "<code>".data ++ escL code ++ "</code>".data := by
  obtain ⟨c0, cs, rfl⟩ : ∃ c0 cs, code = c0 :: cs := by
    cases code with
    | nil => exact absurd rfl hc
    | cons a as => exact ⟨a, as, rfl⟩
  have htw : ((c0 :: cs) ++ ['\x60']).takeWhile (fun x => x != '\x60') = c0 :: cs := by
    rw [twApp _ hc2, List.takeWhile_cons]
    simp
  have hdw : ((c0 :: cs) ++ ['\x60']).dropWhile (fun x => x != '\x60') = ['\x60'] := by
    rw [dwApp _ hc2, List.dropWhile_cons]
    simp
  conv_lhs => rw [inlineGo.eq_def]
  simp only [htw, hdw]
  simp [inlineGo_nil]

/-- C2 counterexample: the second variant of the parser
    (`transformLinks`, parser.js lines 306-308) inserts the URL into
    the `href` attribute verbatim: the ampersand in `a&b` is passed
    through raw, so the anchor is not the escaped one. -/
theorem c2_counterexample :
    V2.transformLinks "[t](a&b)" = "<a href=\x22a&b\x22>t</a>" ∧
    escapeHtml "a&b" = "a&amp;b" ∧
    ("<a href=\x22a&b\x22>t</a>" : String) ≠ "<a href=\x22a&amp;b\x22>t</a>" := by
  refine ⟨by decide, by decide, by decide⟩

/-- C2 (amended): `processLinks` (first variant) HTML-escapes the URL
    placed in `href`, and inline-code content is HTML-escaped by
    `processInlineCode`; but the second variant's `transformLinks`
    inserts the URL verbatim, without escaping. -/
theorem c2_url_escaping (lt url code : String)
    (hlt : lt.data ≠ []) (hlt2 : ∀ c ∈ lt.data, c ≠ ']')
    (hu : url.data ≠ []) (hu2 : ∀ c ∈ url.data, c ≠ ')')
    (hc : code.data ≠ []) (hc2 : ∀ c ∈ code.data, c ≠ '\x60') :
    processLinks ("[" ++ lt ++ "](" ++ url ++ ")") =
      "<a href=\x22" ++ escapeHtml url ++ "\x22>" ++ lt ++ "</a>" ∧
    V2.transformLinks ("[" ++ lt ++ "](" ++ url ++ ")") =
      "<a href=\x22" ++ url ++ "\x22>" ++ lt ++ "</a>" ∧
    processInlineCode ("\x60" ++ code ++ "\x60") =
      "<code>" ++ escapeHtml code ++ "</code>" := by
  have hlt2' : ∀ c ∈ lt.data, (c != ']') = true := fun c hcm => by
    simp [hlt2 c hcm]
  have hu2' : ∀ c ∈ url.data, (c != ')') = true := fun c hcm => by
    simp [hu2 c hcm]
  have hc2' : ∀ c ∈ code.data, (c != '\x60') = true := fun c hcm => by
    simp [hc2 c hcm]
  have hd : ("[" ++ lt ++ "](" ++ url ++ ")").data =
      '[' :: (lt.data ++ (']' :: '(' :: (url.data ++ [')']))) := by
    simp [strData_app]
  have hdc : ("\x60" ++ code ++ "\x60").data = '\x60' :: (code.data ++ ['\x60']) := by
    simp [strData_app]
  refine ⟨?_, ?_, ?_⟩
  · show processLinks _ = _
    unfold processLinks
    rw [hd]
    rw [show ('[' :: (lt.data ++ (']' :: '(' :: (url.data ++ [')'])))).length + 1 =
      ('[' :: (lt.data ++ (']' :: '(' :: (url.data ++ [')'])))).length + 1 from rfl]
    rw [linksGo_single hlt hlt2' hu hu2']
    apply congrArg String.mk
    simp [strData_app, escapeHtml, List.append_assoc]
  · show V2.transformLinks _ = _
    unfold V2.transformLinks
    rw [hd]
    rw [linksRawGo_single hlt hlt2' hu hu2']
    apply congrArg String.mk
    simp [strData_app, List.append_assoc]
  · show processInlineCode _ = _
    unfold processInlineCode
    rw [hdc]
    rw [inlineGo_single hc hc2']
    apply congrArg String.mk
    simp [strData_app, escapeHtml, List.append_assoc]

/-- C2 witness: the amended theorem applied at link text `t`, URL
    `a&b` and code `x<y`. -/
theorem c2_url_escaping_witness :
    processLinks "[t](a&b)" = "<a href=\x22a&amp;b\x22>t</a>" ∧
    V2.transformLinks "[t](a&b)" = "<a href=\x22a&b\x22>t</a>" ∧
    processInlineCode "\x60x<y\x60" = "<code>x&lt;y</code>" := by
  have h := c2_url_escaping "t" "a&b" "x<y" (by decide) (by decide) (by decide)
    (by decide) (by decide) (by decide)
  obtain ⟨h1, h2, h3⟩ := h
  refine ⟨?_, ?_, ?_⟩
  · rw [show ("[t](a&b)" : String) = "[" ++ "t" ++ "](" ++ "a&b" ++ ")" by decide, h1]
    decide
  · rw [show ("[t](a&b)" : String) = "[" ++ "t" ++ "](" ++ "a&b" ++ ")" by decide, h2]
    decide
  · rw [show ("\x60x<y\x60" : String) = "\x60" ++ "x<y" ++ "\x60" by decide, h3]
    decide

/-- C3 counterexample: in the first variant the inline order is code,
    bold, italic, links - not code, links, bold, italic - and there is
    no recursive step inside link processing.  The asterisks inside the
    URL of `[t](u*v*w)` are converted to `<em>` by the global italic
    pass BEFORE links are processed, so the emphasis markup (escaped)
    ends up inside the `href` attribute, which the claim says never
    happens; under the claimed order the href would hold `u*v*w`. -/
theorem c3_counterexample :
    parseMarkdown "[t](u*v*w)" =
      some "<p><a href=\x22u&lt;em&gt;v&lt;/em&gt;w\x22>t</a></p>" ∧
    some ("<p><a href=\x22u&lt;em&gt;v&lt;/em&gt;w\x22>t</a></p>" : String) ≠
      some "<p><a href=\x22u*v*w\x22>t</a></p>" := by
  refine ⟨by decide, by decide⟩

/-- C3 (amended): the inline stages of `parseMarkdown` run in the
    order inline code, bold, italic, links; emphasis inside link text
    works because the global bold/italic passes run before link
    processing (there is no recursive step), and consequently emphasis
    markers occurring in the URL part are also converted before the
    anchor is produced, and backtick code spans do not protect their
    content from the later emphasis passes. -/
theorem c3_inline_order :
    parseMarkdown "[**b**](u)" = some "<p><a href=\x22u\x22><strong>b</strong></a></p>" ∧
    parseMarkdown "[*i*](u)" = some "<p><a href=\x22u\x22><em>i</em></a></p>" ∧
    parseMarkdown "\x60*x*\x60" = some "<p><code><em>x</em></code></p>" ∧
    parseMarkdown "[t](u*v*w)" =
      some "<p><a href=\x22u&lt;em&gt;v&lt;/em&gt;w\x22>t</a></p>" := by
  refine ⟨by decide, by decide, by decide, by decide⟩

/-- C4: the claim is right and the code is wrong - placeholder lines
    are NOT passed through the inline transforms untouched.  The
    placeholder text `\x00CODE_BLOCK_0\x00` contains `_BLOCK_`, which
    the underscore italic pass `/_([^_]+)_/g` rewrites to
    `<em>BLOCK</em>`; the same happens to a user line that merely looks
    like a placeholder. -/
theorem c4_placeholder_not_opaque :
    processItalic "\x00CODE_BLOCK_0\x00" = "\x00CODE<em>BLOCK</em>0\x00" ∧
    parseMarkdown "\x00CODE_BLOCK_0\x00" = some "\x00CODE<em>BLOCK</em>0\x00" := by
  refine ⟨by decide, by decide⟩

/-- C5: the claim is right and the code is wrong.  For the one-block
    input ```` ```\na\n``` ```` extraction produces exactly one rendered
    block and one placeholder in the intermediate text, but the italic
    pass corrupts the placeholder before restoration, so the final
    output contains no placeholder token AND ZERO `<pre><code>`
    elements instead of one. -/
theorem c5_roundtrip_broken :
    (extractCodeBlocks "\x60\x60\x60\na\n\x60\x60\x60").2 =
      ["<pre><code>a</code></pre>"] ∧
    (extractCodeBlocks "\x60\x60\x60\na\n\x60\x60\x60").1 = "\x00CODE_BLOCK_0\x00" ∧
    parseMarkdown "\x60\x60\x60\na\n\x60\x60\x60" = some "\x00CODE<em>BLOCK</em>0\x00" ∧
    containsSeq "<pre><code".data "\x00CODE<em>BLOCK</em>0\x00".data = false := by
  refine ⟨by decide, by decide, by decide, by decide⟩

/-- C6: the type guard is right - a non-string argument fails
    immediately and a string argument is processed - but the pipeline
    is NOT total once the input is a string: on the line `# ` (a hash
    run followed by one whitespace character and nothing else) the
    paragraph loop of `processBlockElements` collects no line and never
    advances its index, so `parseMarkdown "# "` never terminates
    (`none` for every fuel). -/
theorem c6_validation_and_nontermination :
    parseMarkdownJs JsInput.nonString =
      Except.error "parseMarkdown expects a string input" ∧
    (∀ s : String, parseMarkdownJs (JsInput.str s) = Except.ok (parseMarkdown s)) ∧
    (∀ fuel, blockGo fuel ["# ".data] = none) ∧
    parseMarkdown "# " = none := by
  refine ⟨rfl, fun s => rfl, ?_, by decide⟩
  intro fuel
  induction fuel with
  | zero => rfl
  | succ f ih =>
    have step : blockGo (f + 1) ["# ".data] = blockGo f ["# ".data] := rfl
    rw [step, ih]

/-- C9 counterexample: the variant implementations match the `.md`
    extension case-sensitively, so `docs/a.MD` is NOT mapped to
    `docs/a.html` by `part_001` (it appends `.html` to the full name),
    and `part_002` renames a non-`.md` file by stripping its extension
    instead of appending. -/
theorem c9_counterexample :
    P1.deriveOutputPath "docs/a.MD" none = "docs/a.MD.html" ∧
    ("docs/a.MD.html" : String) ≠ "docs/a.html" ∧
    P2.deriveOutputPath "docs/b.txt" none = "docs/b.html" ∧
    ("docs/b.html" : String) ≠ "docs/b.txt.html" := by
  refine ⟨by decide, by decide, by decide, by decide⟩

/-- C9 (amended): `fileHandler.js`'s `deriveOutputPath` replaces a
    trailing case-insensitive `.md` with `.html` and appends `.html`
    otherwise, but accepts no output directory; the two variant
    implementations accept an output-directory override that relocates
    the derived filename without renaming it, but both match `.md`
    case-sensitively - `part_001` appends `.html` to the full basename
    for other extensions while `part_002` strips any extension. -/
theorem c9_derive_output_path :
    FileHandler.deriveOutputPath "docs/a.MD" = "docs/a.html" ∧
    FileHandler.deriveOutputPath "docs/a.md" = "docs/a.html" ∧
    FileHandler.deriveOutputPath "docs/c.txt" = "docs/c.txt.html" ∧
    P1.deriveOutputPath "docs/a.md" (some "out") = "out/a.html" ∧
    P1.deriveOutputPath "docs/a.md" none = "docs/a.html" ∧
    P1.deriveOutputPath "docs/c.txt" none = "docs/c.txt.html" ∧
    P1.deriveOutputPath "docs/a.MD" none = "docs/a.MD.html" ∧
    P2.deriveOutputPath "docs/a.md" (some "out") = "out/a.html" ∧
    P2.deriveOutputPath "docs/b.txt" none = "docs/b.html" := by
  refine ⟨by decide, by decide, by decide, by decide, by decide, by decide, by decide,
    by decide, by decide⟩

/-- C10: `wrapHtmlDocument` interpolates the title into the `<title>`
    element verbatim, with no HTML escaping: every title occurs
    literally in the document (first conjunct); a title holding
    `</title>&` reaches the document raw, and differs from what
    escaping would have produced; and the title derived from a
    filename containing `<`, `&`, `>` reaches the `<title>` element
    unescaped. -/
theorem c10_title_verbatim :
    (∀ fragment title : String,
      ContainsSub title.data (Converter.wrapHtmlDocument fragment title).data) ∧
    containsSeq "<title></title>&</title>".data
      (Converter.wrapHtmlDocument "<p>x</p>" "</title>&").data = true ∧
    Converter.deriveTitle "docs/x<&>.md" = "x<&>" ∧
    containsSeq "<title>x<&></title>".data
      (Converter.wrapHtmlDocument "" (Converter.deriveTitle "docs/x<&>.md")).data = true ∧
    Converter.wrapHtmlDocument "" "</title>&" ≠
      Converter.wrapHtmlDocument "" (escapeHtml "</title>&") := by
  refine ⟨?_, by decide, by decide, by decide, by decide⟩
  intro fragment title
  refine ⟨("<!DOCTYPE html>\n<html lang=\x22en\x22>\n<head>\n  <meta charset=\x22UTF-8\x22>\n  <meta name=\x22viewport\x22 content=\x22width=device-width, initial-scale=1.0\x22>\n  <title>" : String).data,
    ("</title>\n</head>\n<body>\n" : String).data ++ fragment.data ++
      ("\n</body>\n</html>\n" : String).data, ?_⟩
  unfold Converter.wrapHtmlDocument
  rw [strData_app, strData_app, strData_app, strData_app]
  simp only [List.append_assoc]
